import Mathlib

/-!
Verification of the `anellus` lock-free ring buffer (`src/lib.rs`).

The shared state `AnellusInner<T>` holds two cursors `r`, `w`, a fixed
`capacity` and a backing vector `ring` of length `capacity`.  The public
operations are `new(size)`, `push(value)` and `pull()`.  In a sequential
execution the compare-and-swap in `push`/`pull` always succeeds on the first
attempt (nobody else moved the cursor between the relaxed load and the CAS),
so the retry loops collapse to a single pass; the sequential embedding below
reflects that single pass.  The concurrent behaviour, where the loop body is
interleaved with other threads at the granularity of the atomic accesses in
the source, is modelled separately further down (`Sys`, `execSched`).
-/

/-- The two non-fatal error signals of `enum Errors` in `src/lib.rs`. -/
inductive Errors where
  | Empty
  | Full
  deriving Repr, DecidableEq

/-- The shared ring state `AnellusInner<T>`: read cursor `r`, write cursor
`w`, fixed `capacity`, and the backing store `ring` (a `Vec<T>` of length
`capacity`).  Machine `usize` values are modelled as `Nat`; the cursors stay
far below `2^64` (they are always reduced mod `capacity`), so no overflow
wrap is reachable. -/
structure Anellus (T : Type) where
  r : Nat
  w : Nat
  capacity : Nat
  ring : List T
  deriving Repr, DecidableEq

namespace Anellus

/-- `Anellus::new(size)`: capacity is `size + 2`, cursors start at
`r = 0`, `w = 1`.  The Rust code obtains the backing store with
`Vec::with_capacity(size+2)` followed by `set_len(size+2)`, so the store has
length `size + 2` but *unspecified* initial contents; the unspecified
contents are modelled by the parameter `init`, an arbitrary function giving
each slot its initial (junk) value. -/
def new (size : Nat) (init : Nat → T) : Anellus T :=
  { r := 0
    w := 1
    capacity := size + 2
    ring := (List.range (size + 2)).map init }

/-- `Anellus::pull`, sequential single pass: load `r` and `w`, compute
`newr = (r + 1) % capacity`; if `newr == w` return `Err(Empty)`, else read
`ring[newr]`, advance `r` to `newr` (the CAS, which succeeds sequentially)
and return the value. -/
def pull [Inhabited T] (a : Anellus T) : Except Errors T × Anellus T :=
  let newr := (a.r + 1) % a.capacity
  if newr = a.w then
    (Except.error Errors.Empty, a)
  else
    (Except.ok (a.ring.getD newr default), { a with r := newr })

/-- `Anellus::push`, sequential single pass: load `r` and `w`, compute
`neww = (w + 1) % capacity`; if `neww == r` return `Err(Full)`, else advance
`w` to `neww` (the CAS, which succeeds sequentially) and write `value` into
`ring[prevw]`. -/
def push (a : Anellus T) (value : T) : Except Errors Unit × Anellus T :=
  let neww := (a.w + 1) % a.capacity
  if neww = a.r then
    (Except.error Errors.Full, a)
  else
    (Except.ok (), { a with w := neww, ring := a.ring.set a.w value })

end Anellus

/-- A single client call in a sequential execution. -/
inductive Op (T : Type) where
  | push (v : T)
  | pull
  deriving Repr, DecidableEq

/-- The observable outcome of a single call. -/
inductive Out (T : Type) where
  | pushOk (v : T)
  | pushFull
  | pullOk (v : T)
  | pullEmpty
  deriving Repr, DecidableEq

namespace Anellus

/-- Execute one call against the buffer, recording its outcome
(a successful push is recorded together with the value it accepted). -/
def step [Inhabited T] (a : Anellus T) : Op T → Anellus T × Out T
  | .push v =>
      match a.push v with
      | (.ok _, a') => (a', .pushOk v)
      | (.error _, a') => (a', .pushFull)
  | .pull =>
      match a.pull with
      | (.ok x, a') => (a', .pullOk x)
      | (.error _, a') => (a', .pullEmpty)

/-- Execute a sequence of calls, collecting the outcomes in order. -/
def run [Inhabited T] (a : Anellus T) : List (Op T) → Anellus T × List (Out T)
  | [] => (a, [])
  | op :: ops =>
      let p := a.step op
      let q := p.1.run ops
      (q.1, p.2 :: q.2)

end Anellus

/-- The values accepted by the successful pushes of an outcome trace. -/
def accepted : List (Out T) → List T
  | [] => []
  | .pushOk v :: os => v :: accepted os
  | .pushFull :: os => accepted os
  | .pullOk _ :: os => accepted os
  | .pullEmpty :: os => accepted os

/-- The values returned by the successful pulls of an outcome trace. -/
def returned : List (Out T) → List T
  | [] => []
  | .pushOk _ :: os => returned os
  | .pushFull :: os => returned os
  | .pullOk v :: os => v :: returned os
  | .pullEmpty :: os => returned os

/-! ### Interleaved (concurrent) semantics

The source's `push`/`pull` are retry loops over atomic accesses: relaxed
loads of `r` and `w`, a compare-and-swap of one cursor, and a non-atomic
slot access (`ring[prevw] = value` after a successful push CAS; reading
`ring[newr]` *before* the pull CAS).  The model below executes one such
shared-memory access per step; thread-local computation (computing the
candidate cursor and comparing it against the snapshots) touches no shared
state and is folded into the step that uses its result. -/

/-- A thread's position inside the `push`/`pull` retry loop of
`src/lib.rs`, between two shared-memory accesses.  The constructor
arguments are the thread-local variables live at that point. -/
inductive PC (T : Type) where
  | idle
  | pushLoadR (v : T)
  | pushLoadW (v : T) (prevr : Nat)
  | pushCas (v : T) (prevr prevw : Nat)
  | pushStore (v : T) (slot : Nat)
  | pullLoadR
  | pullLoadW (prevr : Nat)
  | pullRead (prevr prevw : Nat)
  | pullCas (prevr newr : Nat) (value : T)
  deriving Repr, DecidableEq

/-- A thread holding a cloned handle: its position inside the current
operation, the operations it has yet to start, and the outcomes of the
operations it has completed (oldest first). -/
structure Thread (T : Type) where
  pc : PC T
  todo : List (Op T)
  log : List (Out T)
  deriving Repr, DecidableEq

/-- One atomic step of a single thread against the shared ring state,
mirroring `src/lib.rs` access by access: `push` loads `r`, loads `w`,
full-tests and CASes `w` (writing the slot only in a *later* step), while
`pull` loads `r`, loads `w`, empty-tests and reads the slot, and only then
CASes `r`; a failed CAS restarts the loop. -/
def threadStep {T : Type} [Inhabited T] (g : Anellus T) (t : Thread T) :
    Anellus T × Thread T :=
  match t.pc with
  | .idle =>
      match t.todo with
      | [] => (g, t)
      | Op.push v :: rest => (g, { t with pc := .pushLoadR v, todo := rest })
      | Op.pull :: rest => (g, { t with pc := .pullLoadR, todo := rest })
  | .pushLoadR v => (g, { t with pc := .pushLoadW v g.r })
  | .pushLoadW v prevr => (g, { t with pc := .pushCas v prevr g.w })
  | .pushCas v prevr prevw =>
      let neww := (prevw + 1) % g.capacity
      if neww = prevr then
        (g, { t with pc := .idle, log := t.log ++ [Out.pushFull] })
      else if g.w = prevw then
        ({ g with w := neww }, { t with pc := .pushStore v prevw })
      else
        (g, { t with pc := .pushLoadR v })
  | .pushStore v slot =>
      ({ g with ring := g.ring.set slot v },
       { t with pc := .idle, log := t.log ++ [Out.pushOk v] })
  | .pullLoadR => (g, { t with pc := .pullLoadW g.r })
  | .pullLoadW prevr => (g, { t with pc := .pullRead prevr g.w })
  | .pullRead prevr prevw =>
      let newr := (prevr + 1) % g.capacity
      if newr = prevw then
        (g, { t with pc := .idle, log := t.log ++ [Out.pullEmpty] })
      else
        (g, { t with pc := .pullCas prevr newr (g.ring.getD newr default) })
  | .pullCas prevr newr value =>
      if g.r = prevr then
        ({ g with r := newr },
         { t with pc := .idle, log := t.log ++ [Out.pullOk value] })
      else
        (g, { t with pc := .pullLoadR })

/-- A whole system: the shared ring state and the threads cloned onto it. -/
structure Sys (T : Type) where
  g : Anellus T
  threads : List (Thread T)
  deriving Repr, DecidableEq

/-- Schedule one atomic step of thread `i` (an out-of-range index idles). -/
def sysStep {T : Type} [Inhabited T] (s : Sys T) (i : Nat) : Sys T :=
  match s.threads[i]? with
  | none => s
  | some t =>
      let p := threadStep s.g t
      { g := p.1, threads := s.threads.set i p.2 }

/-- Run a schedule: each entry names the thread taking the next atomic step. -/
def execSched {T : Type} [Inhabited T] (s : Sys T) : List Nat → Sys T
  | [] => s
  | i :: is => execSched (sysStep s i) is

/-! ### The sequential cursor/history invariant -/

/-- Relation between a buffer state reachable in a sequential execution and
its observable history: `pushed` is the list of values accepted by the
successful pushes so far, `pulled` the list of values returned by the
successful pulls so far; `N` is the logical capacity passed to `new`.  The
cursors are the histories' lengths reduced mod the internal capacity
`N + 2` (offset by one for `w`), the returned values form a prefix of the
accepted ones, and each still-buffered value sits in the slot its push wrote. -/
structure SeqInv {T : Type} [Inhabited T] (N : Nat) (a : Anellus T)
    (pushed pulled : List T) : Prop where
  cap : a.capacity = N + 2
  len : a.ring.length = N + 2
  qp : pulled.length ≤ pushed.length
  pq : pushed.length ≤ pulled.length + N
  hr : a.r = pulled.length % (N + 2)
  hw : a.w = (pushed.length + 1) % (N + 2)
  pref : pulled = pushed.take pulled.length
  slots : ∀ k, pulled.length ≤ k → k < pushed.length →
    a.ring.getD ((k + 1) % (N + 2)) default = pushed.getD k default

/-! ### Modular-arithmetic helpers for the cursor algebra -/

/-- Two naturals whose difference is positive but below `n` have distinct
residues mod `n`; equivalently, residue equality forces equality. -/
lemma mod_eq_mod_iff_of_lt {n a b : Nat} (hab : a ≤ b) (h : b - a < n) :
    a % n = b % n ↔ a = b := by
  constructor
  · intro hmod
    have hdvd : n ∣ b - a := (Nat.modEq_iff_dvd' hab).1 hmod
    have := Nat.eq_zero_of_dvd_of_lt hdvd h
    omega
  · intro h
    rw [h]

/-- For a difference at most `n`, residue equality mod `n` means the numbers
are equal or exactly `n` apart. -/
lemma mod_eq_mod_iff_of_le {n a b : Nat} (hab : a ≤ b) (h : b - a ≤ n) :
    a % n = b % n ↔ (a = b ∨ b = a + n) := by
  constructor
  · intro hmod
    have hdvd : n ∣ b - a := (Nat.modEq_iff_dvd' hab).1 hmod
    rcases Nat.eq_zero_or_pos (b - a) with h0 | hpos
    · left
      omega
    · have hn := Nat.le_of_dvd hpos hdvd
      right
      omega
  · intro hc
    rcases hc with h1 | h1
    · rw [h1]
    · rw [h1, Nat.add_mod_right]

/-! ### List helpers -/

/-- Reading back the slot just overwritten. -/
lemma getD_set_self {T : Type} (l : List T) (i : Nat) (v d : T) (h : i < l.length) :
    (l.set i v).getD i d = v := by
  rw [List.getD_eq_getElem?_getD, List.getElem?_set_eq_of_lt v h]
  rfl

/-- Overwriting one slot leaves every other slot unchanged. -/
lemma getD_set_ne {T : Type} (l : List T) (i j : Nat) (v d : T) (h : i ≠ j) :
    (l.set i v).getD j d = l.getD j d := by
  rw [List.getD_eq_getElem?_getD, List.getElem?_set_ne h, ← List.getD_eq_getElem?_getD]

lemma getD_append_left {T : Type} (l1 l2 : List T) (n : Nat) (d : T) (h : n < l1.length) :
    (l1 ++ l2).getD n d = l1.getD n d := by
  rw [List.getD_eq_getElem?_getD, List.getElem?_append_left h, ← List.getD_eq_getElem?_getD]

lemma getD_append_last {T : Type} (l : List T) (v d : T) :
    (l ++ [v]).getD l.length d = v := by
  rw [List.getD_eq_getElem?_getD, List.getElem?_append_right (Nat.le_refl _)]
  simp

/-- A freshly constructed buffer satisfies the invariant with empty history,
whatever junk the uninitialised storage holds. -/
lemma inv_new {T : Type} [Inhabited T] (N : Nat) (init : Nat → T) :
    SeqInv N (Anellus.new N init) [] [] := by
  refine ⟨rfl, by simp [Anellus.new], Nat.le_refl _, Nat.zero_le _, by simp [Anellus.new],
    by simp [Anellus.new, Nat.one_mod], rfl, ?_⟩
  intro k h1 h2
  simp at h2

/-- Under the invariant, the full test in `push` fires exactly when the
buffer holds `N` elements. -/
lemma full_test_iff {T : Type} [Inhabited T] {N : Nat} {a : Anellus T}
    {pushed pulled : List T} (hI : SeqInv N a pushed pulled) :
    (a.w + 1) % a.capacity = a.r ↔ pushed.length = pulled.length + N := by
  have hqp := hI.qp
  have hpq := hI.pq
  rw [hI.cap, hI.hw, hI.hr, Nat.mod_add_mod, eq_comm,
    mod_eq_mod_iff_of_le (n := N + 2) (by omega) (by omega)]
  omega

/-- Under the invariant, the empty test in `pull` fires exactly when the
buffer holds no element. -/
lemma empty_test_iff {T : Type} [Inhabited T] {N : Nat} {a : Anellus T}
    {pushed pulled : List T} (hI : SeqInv N a pushed pulled) :
    (a.r + 1) % a.capacity = a.w ↔ pushed.length = pulled.length := by
  have hqp := hI.qp
  have hpq := hI.pq
  rw [hI.cap, hI.hr, hI.hw, Nat.mod_add_mod,
    mod_eq_mod_iff_of_lt (n := N + 2) (by omega) (by omega)]
  omega

/-- A push against a buffer holding `N` elements fails with `Full` and
leaves the state untouched. -/
lemma push_full {T : Type} [Inhabited T] {N : Nat} {a : Anellus T}
    {pushed pulled : List T} (hI : SeqInv N a pushed pulled)
    (h : pushed.length = pulled.length + N) (v : T) :
    a.push v = (Except.error Errors.Full, a) := by
  simp only [Anellus.push]
  rw [if_pos ((full_test_iff hI).2 h)]

/-- A push against a buffer holding fewer than `N` elements succeeds,
writes the value at the old write cursor, advances the write cursor, and
re-establishes the invariant with the value appended to the accepted
history. -/
lemma push_ok {T : Type} [Inhabited T] {N : Nat} {a : Anellus T}
    {pushed pulled : List T} (hI : SeqInv N a pushed pulled)
    (h : pushed.length < pulled.length + N) (v : T) :
    a.push v = (Except.ok (),
      { a with w := (a.w + 1) % a.capacity, ring := a.ring.set a.w v }) ∧
    SeqInv N { a with w := (a.w + 1) % a.capacity, ring := a.ring.set a.w v }
      (pushed ++ [v]) pulled := by
  have hqp := hI.qp
  have hpq := hI.pq
  have hne : ¬ (a.w + 1) % a.capacity = a.r := by
    rw [full_test_iff hI]
    omega
  refine ⟨?_, ?_⟩
  · simp only [Anellus.push]
    rw [if_neg hne]
  · refine ⟨hI.cap, by rw [List.length_set]; exact hI.len, by simp; omega, by simp; omega,
      hI.hr, ?_, ?_, ?_⟩
    · rw [hI.hw, hI.cap, Nat.mod_add_mod]
      simp
    · rw [List.take_append_of_le_length hqp]
      exact hI.pref
    · intro k hk1 hk2
      simp only [List.length_append, List.length_cons, List.length_nil] at hk2
      rcases Nat.lt_or_ge k pushed.length with hlt | hge
      · have hne2 : a.w ≠ (k + 1) % (N + 2) := by
          rw [hI.hw, Ne, eq_comm, mod_eq_mod_iff_of_lt (n := N + 2) (by omega) (by omega)]
          omega
        rw [getD_set_ne _ _ _ _ _ hne2, hI.slots k hk1 hlt, getD_append_left _ _ _ _ hlt]
      · have hkP : k = pushed.length := by omega
        subst hkP
        have hridx : (pushed.length + 1) % (N + 2) = a.w := by
          rw [hI.hw]
        rw [hridx, getD_set_self _ _ _ _ (by rw [hI.len, hI.hw]; exact Nat.mod_lt _ (by omega)),
          getD_append_last]

/-- A pull against an empty buffer fails with `Empty` and leaves the state
untouched. -/
lemma pull_empty {T : Type} [Inhabited T] {N : Nat} {a : Anellus T}
    {pushed pulled : List T} (hI : SeqInv N a pushed pulled)
    (h : pushed.length = pulled.length) :
    a.pull = (Except.error Errors.Empty, a) := by
  simp only [Anellus.pull]
  rw [if_pos ((empty_test_iff hI).2 h)]

/-- A pull against a non-empty buffer returns the oldest still-buffered
value, advances the read cursor, and re-establishes the invariant with that
value appended to the returned history. -/
lemma pull_ok {T : Type} [Inhabited T] {N : Nat} {a : Anellus T}
    {pushed pulled : List T} (hI : SeqInv N a pushed pulled)
    (h : pulled.length < pushed.length) :
    a.pull = (Except.ok (pushed.getD pulled.length default),
      { a with r := (a.r + 1) % a.capacity }) ∧
    SeqInv N { a with r := (a.r + 1) % a.capacity }
      pushed (pulled ++ [pushed.getD pulled.length default]) := by
  have hqp := hI.qp
  have hpq := hI.pq
  have hne : ¬ (a.r + 1) % a.capacity = a.w := by
    rw [empty_test_iff hI]
    omega
  have hridx : (a.r + 1) % a.capacity = (pulled.length + 1) % (N + 2) := by
    rw [hI.hr, hI.cap, Nat.mod_add_mod]
  have hval : a.ring.getD ((a.r + 1) % a.capacity) default = pushed.getD pulled.length default := by
    rw [hridx, hI.slots pulled.length (Nat.le_refl _) h]
  refine ⟨?_, ?_⟩
  · simp only [Anellus.pull]
    rw [if_neg hne, hval]
  · refine ⟨hI.cap, hI.len, by simp; omega, by simp; omega, ?_, hI.hw, ?_, ?_⟩
    · rw [hridx]
      simp
    · have hx : pushed[pulled.length]? = some (pushed.getD pulled.length default) := by
        rw [List.getElem?_eq_getElem h, List.getD_eq_getElem?_getD,
          List.getElem?_eq_getElem h]
        rfl
      rw [show (pulled ++ [pushed.getD pulled.length default]).length = pulled.length + 1 by simp,
        List.take_succ, hx, ← hI.pref]
      rfl
    · intro k hk1 hk2
      simp only [List.length_append, List.length_cons, List.length_nil] at hk1
      exact hI.slots k (by omega) hk2

/-- Reduce a recorded push step once the underlying push is known to succeed. -/
lemma step_push_of_ok {T : Type} [Inhabited T] {a s : Anellus T} {v : T}
    (he : a.push v = (Except.ok (), s)) :
    a.step (Op.push v) = (s, Out.pushOk v) := by
  simp [Anellus.step, he]

/-- Reduce a recorded push step once the underlying push is known to fail. -/
lemma step_push_of_err {T : Type} [Inhabited T] {a s : Anellus T} {v : T} {e : Errors}
    (he : a.push v = (Except.error e, s)) :
    a.step (Op.push v) = (s, Out.pushFull) := by
  simp [Anellus.step, he]

/-- Reduce a recorded pull step once the underlying pull is known to succeed. -/
lemma step_pull_of_ok {T : Type} [Inhabited T] {a s : Anellus T} {x : T}
    (he : a.pull = (Except.ok x, s)) :
    a.step Op.pull = (s, Out.pullOk x) := by
  simp [Anellus.step, he]

/-- Reduce a recorded pull step once the underlying pull is known to fail. -/
lemma step_pull_of_err {T : Type} [Inhabited T] {a s : Anellus T} {e : Errors}
    (he : a.pull = (Except.error e, s)) :
    a.step Op.pull = (s, Out.pullEmpty) := by
  simp [Anellus.step, he]

lemma accepted_cons {T : Type} (o : Out T) (os : List (Out T)) :
    accepted (o :: os) = accepted [o] ++ accepted os := by
  cases o <;> rfl

lemma returned_cons {T : Type} (o : Out T) (os : List (Out T)) :
    returned (o :: os) = returned [o] ++ returned os := by
  cases o <;> rfl

/-- One recorded step preserves the invariant, appending exactly its
outcome's accepted/returned values to the histories. -/
lemma step_inv {T : Type} [Inhabited T] {N : Nat} {a : Anellus T}
    {pushed pulled : List T} (hI : SeqInv N a pushed pulled) (op : Op T) :
    SeqInv N (a.step op).1 (pushed ++ accepted [(a.step op).2])
      (pulled ++ returned [(a.step op).2]) := by
  cases op with
  | push v =>
    rcases Nat.lt_or_ge pushed.length (pulled.length + N) with hlt | hge
    · obtain ⟨he, hI'⟩ := push_ok hI hlt v
      rw [step_push_of_ok he]
      simpa [accepted, returned] using hI'
    · have hful : pushed.length = pulled.length + N := by
        have := hI.pq
        omega
      rw [step_push_of_err (push_full hI hful v)]
      simpa [accepted, returned] using hI
  | pull =>
    rcases Nat.lt_or_ge pulled.length pushed.length with hlt | hge
    · obtain ⟨he, hI'⟩ := pull_ok hI hlt
      rw [step_pull_of_ok he]
      simpa [accepted, returned] using hI'
    · have hemp : pushed.length = pulled.length := by
        have := hI.qp
        omega
      rw [step_pull_of_err (pull_empty hI hemp)]
      simpa [accepted, returned] using hI

/-- Running any call sequence from an invariant state preserves the
invariant, appending the trace's accepted pushes and returned pulls. -/
lemma run_inv {T : Type} [Inhabited T] {N : Nat} (ops : List (Op T)) :
    ∀ (a : Anellus T) (pushed pulled : List T), SeqInv N a pushed pulled →
    SeqInv N (a.run ops).1 (pushed ++ accepted (a.run ops).2)
      (pulled ++ returned (a.run ops).2) := by
  induction ops with
  | nil =>
    intro a pushed pulled hI
    simpa [Anellus.run, accepted, returned] using hI
  | cons op ops ih =>
    intro a pushed pulled hI
    have h2 := ih (a.step op).1 _ _ (step_inv hI op)
    simp only [Anellus.run]
    rw [accepted_cons, returned_cons, ← List.append_assoc, ← List.append_assoc]
    exact h2

/-- The invariant at the end of any call trace from a fresh buffer. -/
lemma run_inv_new {T : Type} [Inhabited T] (N : Nat) (init : Nat → T)
    (ops : List (Op T)) :
    SeqInv N ((Anellus.new N init).run ops).1
      (accepted ((Anellus.new N init).run ops).2)
      (returned ((Anellus.new N init).run ops).2) := by
  have h := run_inv ops (Anellus.new N init) [] [] (inv_new N init)
  simpa using h

/-- Traces compose: running a concatenation concatenates the outcomes. -/
lemma run_append {T : Type} [Inhabited T] (l1 l2 : List (Op T)) :
    ∀ (a : Anellus T), a.run (l1 ++ l2) =
      (((a.run l1).1.run l2).1, (a.run l1).2 ++ ((a.run l1).1.run l2).2) := by
  induction l1 with
  | nil => intro a; simp [Anellus.run]
  | cons op ops ih => intro a; simp [Anellus.run, ih]

/-- While at least `vs.length` free slots remain, pushing the values of
`vs` one after the other succeeds throughout. -/
lemma run_pushes {T : Type} [Inhabited T] {N : Nat} (vs : List T) :
    ∀ (a : Anellus T) (pushed pulled : List T), SeqInv N a pushed pulled →
    pushed.length + vs.length ≤ pulled.length + N →
    (a.run (vs.map Op.push)).2 = vs.map Out.pushOk ∧
    SeqInv N (a.run (vs.map Op.push)).1 (pushed ++ vs) pulled := by
  induction vs with
  | nil =>
    intro a pushed pulled hI hle
    exact ⟨rfl, by simpa using hI⟩
  | cons v vs ih =>
    intro a pushed pulled hI hle
    simp only [List.length_cons] at hle
    obtain ⟨he, hI'⟩ := push_ok hI (by omega) v
    simp only [List.map_cons, Anellus.run, step_push_of_ok he]
    obtain ⟨h2a, h2b⟩ := ih _ (pushed ++ [v]) pulled hI' (by simp; omega)
    refine ⟨by rw [h2a], ?_⟩
    simpa using h2b

/-- Every operation on a logically zero-sized buffer fails and leaves the
state untouched. -/
lemma step_cap0 {T : Type} [Inhabited T] (init : Nat → T) (op : Op T) :
    (Anellus.new 0 init).step op =
      (Anellus.new 0 init,
       match op with
       | Op.push _ => Out.pushFull
       | Op.pull => Out.pullEmpty) := by
  cases op <;> simp [Anellus.step, Anellus.push, Anellus.pull, Anellus.new]

/-! ### Claim theorems -/

/-- C1, counterexample to the literal statement: in the sequential
interleaving consisting of a single successful `push 42` and no pulls, the
sequence of values returned by successful pulls is `[]` while the sequence
of values accepted by successful pushes is `[42]`; the two are not equal. -/
theorem anellus_C1_counterexample :
    ¬ returned ((Anellus.new 1 (fun _ => (0 : Nat))).run [Op.push 42]).2 =
      accepted ((Anellus.new 1 (fun _ => (0 : Nat))).run [Op.push 42]).2 := by
  decide

/-- C1 (amended): for every buffer `new N` and every sequential
interleaving of push and pull calls, the sequence of values returned by
successful pulls equals, in order, the *initial segment of the same
length* of the sequence of values accepted by successful pushes (so each
returned value is identical to the corresponding pushed value), and the
two sequences are equal outright whenever the final state is empty. -/
theorem anellus_C1_fifo {T : Type} [Inhabited T] (N : Nat) (init : Nat → T)
    (ops : List (Op T)) :
    returned ((Anellus.new N init).run ops).2 =
      (accepted ((Anellus.new N init).run ops).2).take
        (returned ((Anellus.new N init).run ops).2).length ∧
    ((((Anellus.new N init).run ops).1.r + 1) % ((Anellus.new N init).run ops).1.capacity =
        ((Anellus.new N init).run ops).1.w →
      returned ((Anellus.new N init).run ops).2 =
        accepted ((Anellus.new N init).run ops).2) := by
  have hI := run_inv_new N init ops
  refine ⟨hI.pref, fun hemp => ?_⟩
  have hlen := (empty_test_iff hI).1 hemp
  rw [hI.pref, ← hlen, List.take_length]

/-- C1 witness: a concrete drained run where the returned and accepted
sequences coincide. -/
theorem anellus_C1_fifo_witness :
    returned ((Anellus.new 1 (fun _ => (0 : Nat))).run [Op.push 5, Op.pull]).2 =
      accepted ((Anellus.new 1 (fun _ => (0 : Nat))).run [Op.push 5, Op.pull]).2 :=
  (anellus_C1_fifo 1 (fun _ => 0) [Op.push 5, Op.pull]).2 (by decide)

/-- C2: from a fresh buffer of logical capacity `N` with no intervening
pulls, the first `N` consecutive pushes all succeed, and an `(N+1)`-th
push returns `Full`. -/
theorem anellus_C2 {T : Type} [Inhabited T] (N : Nat) (init : Nat → T)
    (vs : List T) (x : T) (hlen : vs.length = N) :
    ((Anellus.new N init).run (vs.map Op.push)).2 = vs.map Out.pushOk ∧
    ((Anellus.new N init).run (vs.map Op.push ++ [Op.push x])).2 =
      vs.map Out.pushOk ++ [Out.pushFull] := by
  obtain ⟨h1, hI⟩ :=
    run_pushes vs (Anellus.new N init) [] [] (inv_new N init) (by simp [hlen])
  refine ⟨h1, ?_⟩
  have hful : (([] : List T) ++ vs).length = ([] : List T).length + N := by
    simp [hlen]
  have he := push_full hI hful x
  rw [run_append]
  simp [Anellus.run, step_push_of_err he, h1]

/-- C2 witness at logical capacity 2: both pushes succeed, the third
returns `Full`. -/
theorem anellus_C2_witness :
    ((Anellus.new 2 (fun _ => (0 : Nat))).run
        (([10, 20] : List Nat).map Op.push ++ [Op.push 30])).2 =
      ([10, 20] : List Nat).map Out.pushOk ++ [Out.pushFull] :=
  (anellus_C2 2 (fun _ => 0) [10, 20] 30 (by decide)).2

/-- C3: `push` returns `Full` exactly when `(w + 1) % capacity = r` at
call time, `pull` returns `Empty` exactly when `(r + 1) % capacity = w` at
call time, each failure leaves the whole state (cursors and every storage
slot) unchanged, and a fresh buffer's first pull returns `Empty`. -/
theorem anellus_C3 {T : Type} [Inhabited T] (a : Anellus T) (v : T)
    (N : Nat) (init : Nat → T) :
    ((a.push v).1 = Except.error Errors.Full ↔ (a.w + 1) % a.capacity = a.r) ∧
    ((a.w + 1) % a.capacity = a.r → (a.push v).2 = a) ∧
    (a.pull.1 = Except.error Errors.Empty ↔ (a.r + 1) % a.capacity = a.w) ∧
    ((a.r + 1) % a.capacity = a.w → a.pull.2 = a) ∧
    (Anellus.new N init).pull.1 = Except.error Errors.Empty := by
  refine ⟨?_, ?_, ?_, ?_, ?_⟩
  · by_cases hc : (a.w + 1) % a.capacity = a.r <;> simp [Anellus.push, hc]
  · intro hc
    simp [Anellus.push, hc]
  · by_cases hc : (a.r + 1) % a.capacity = a.w <;> simp [Anellus.pull, hc]
  · intro hc
    simp [Anellus.pull, hc]
  · simp [Anellus.pull, Anellus.new, Nat.one_mod]

/-- C3 witness: on the internal-capacity-2 buffer, which is simultaneously
full and empty, push fails leaving the state unchanged, and so does pull. -/
theorem anellus_C3_witness :
    ((Anellus.new 0 (fun _ => (0 : Nat))).push 7).2 = Anellus.new 0 (fun _ => 0) ∧
    (Anellus.new 0 (fun _ => (0 : Nat))).pull.2 = Anellus.new 0 (fun _ => 0) :=
  ⟨(anellus_C3 (Anellus.new 0 (fun _ => 0)) 7 0 (fun _ => 0)).2.1 (by decide),
   (anellus_C3 (Anellus.new 0 (fun _ => 0)) 7 0 (fun _ => 0)).2.2.2.1 (by decide)⟩

/-- C4: `new logicalSize` yields capacity `logicalSize + 2`, a storage of
length `logicalSize + 2`, `r = 0`, `w = 1`, and this state is empty under
the definition `(r + 1) % capacity = w`. -/
theorem anellus_C4 {T : Type} (N : Nat) (init : Nat → T) :
    (Anellus.new N init).capacity = N + 2 ∧
    (Anellus.new N init).ring.length = N + 2 ∧
    (Anellus.new N init).r = 0 ∧
    (Anellus.new N init).w = 1 ∧
    ((Anellus.new N init).r + 1) % (Anellus.new N init).capacity =
      (Anellus.new N init).w := by
  refine ⟨rfl, by simp [Anellus.new], rfl, rfl, ?_⟩
  simp [Anellus.new, Nat.one_mod]

/-- C5: the concrete wraparound scenario from the spec, on `new 3`:
push 1, push 2, pull, push 3, push 4, pull, pull, pull, pull return
Ok, Ok, Ok(1), Ok, Ok, Ok(2), Ok(3), Ok(4), Err(Empty) in order. -/
theorem anellus_C5 :
    ((Anellus.new 3 (fun _ => (0 : Nat))).run
      [Op.push 1, Op.push 2, Op.pull, Op.push 3, Op.push 4,
       Op.pull, Op.pull, Op.pull, Op.pull]).2 =
    [Out.pushOk 1, Out.pushOk 2, Out.pullOk 1, Out.pushOk 3, Out.pushOk 4,
     Out.pullOk 2, Out.pullOk 3, Out.pullOk 4, Out.pullEmpty] := by
  decide

/-- C7: in every state reachable from `new N` by any sequence of push and
pull calls, both cursors lie in `[0, capacity)` with
`capacity = N + 2`. -/
theorem anellus_C7 {T : Type} [Inhabited T] (N : Nat) (init : Nat → T)
    (ops : List (Op T)) :
    ((Anellus.new N init).run ops).1.r < N + 2 ∧
    ((Anellus.new N init).run ops).1.w < N + 2 ∧
    ((Anellus.new N init).run ops).1.capacity = N + 2 := by
  have hI := run_inv_new N init ops
  exact ⟨by rw [hI.hr]; exact Nat.mod_lt _ (by omega),
    by rw [hI.hw]; exact Nat.mod_lt _ (by omega), hI.cap⟩

/-- C8: a successful push writes its value into the slot at the pre-call
write cursor, advances the write cursor by one mod capacity, and leaves
the read cursor, the capacity and every other storage slot unchanged. -/
theorem anellus_C8 {T : Type} [Inhabited T] (a : Anellus T) (v : T)
    (h : (a.push v).1 = Except.ok ()) (hw : a.w < a.ring.length) :
    (a.push v).2.ring.getD a.w default = v ∧
    (a.push v).2.w = (a.w + 1) % a.capacity ∧
    (a.push v).2.r = a.r ∧
    (a.push v).2.capacity = a.capacity ∧
    ∀ i, i ≠ a.w → (a.push v).2.ring.getD i default = a.ring.getD i default := by
  by_cases hc : (a.w + 1) % a.capacity = a.r
  · simp [Anellus.push, hc] at h
  · refine ⟨?_, ?_, ?_, ?_, ?_⟩
    · simp only [Anellus.push, if_neg hc]
      exact getD_set_self _ _ _ _ hw
    · simp [Anellus.push, hc]
    · simp [Anellus.push, hc]
    · simp [Anellus.push, hc]
    · intro i hi
      simp only [Anellus.push, if_neg hc]
      exact getD_set_ne _ _ _ _ _ (Ne.symm hi)

/-- C8 witness: pushing 9 on a fresh `new 1` writes 9 at slot 1 (the old
write cursor) and keeps the read cursor at 0. -/
theorem anellus_C8_witness :
    ((Anellus.new 1 (fun _ => (0 : Nat))).push 9).2.ring.getD
        (Anellus.new 1 (fun _ => (0 : Nat))).w default = 9 ∧
    ((Anellus.new 1 (fun _ => (0 : Nat))).push 9).2.r =
      (Anellus.new 1 (fun _ => (0 : Nat))).r :=
  ⟨(anellus_C8 (Anellus.new 1 (fun _ => 0)) 9 rfl (by decide)).1,
   (anellus_C8 (Anellus.new 1 (fun _ => 0)) 9 rfl (by decide)).2.2.1⟩

/-- C9: every pull leaves the write cursor, the capacity and the entire
storage (in particular the dequeued slot) unchanged; a successful pull
advances the read cursor to `(r + 1) % capacity` and returns the value
stored at that new index, while a failed pull changes nothing at all. -/
theorem anellus_C9 {T : Type} [Inhabited T] (a : Anellus T) (x : T) :
    a.pull.2.w = a.w ∧
    a.pull.2.ring = a.ring ∧
    a.pull.2.capacity = a.capacity ∧
    (a.pull.1 = Except.ok x →
      a.pull.2.r = (a.r + 1) % a.capacity ∧
      x = a.ring.getD ((a.r + 1) % a.capacity) default) ∧
    (a.pull.1 = Except.error Errors.Empty → a.pull.2 = a) := by
  by_cases hc : (a.r + 1) % a.capacity = a.w
  · refine ⟨?_, ?_, ?_, ?_, ?_⟩ <;> simp [Anellus.pull, hc]
  · refine ⟨by simp [Anellus.pull, hc], by simp [Anellus.pull, hc],
      by simp [Anellus.pull, hc], ?_, by simp [Anellus.pull, hc]⟩
    intro hx
    simp only [Anellus.pull, if_neg hc] at hx
    simp only [Except.ok.injEq] at hx
    exact ⟨by simp [Anellus.pull, hc], hx.symm⟩

/-- C9 witness: pulling from `new 1` after a successful `push 5` advances
the read cursor to 1 and returns the value stored at index 1, namely 5. -/
theorem anellus_C9_witness :
    ((Anellus.new 1 (fun _ => (0 : Nat))).push 5).2.pull.2.r =
      (((Anellus.new 1 (fun _ => (0 : Nat))).push 5).2.r + 1) %
        ((Anellus.new 1 (fun _ => (0 : Nat))).push 5).2.capacity ∧
    (5 : Nat) = ((Anellus.new 1 (fun _ => (0 : Nat))).push 5).2.ring.getD
      ((((Anellus.new 1 (fun _ => (0 : Nat))).push 5).2.r + 1) %
        ((Anellus.new 1 (fun _ => (0 : Nat))).push 5).2.capacity) default :=
  (anellus_C9 (((Anellus.new 1 (fun _ => (0 : Nat))).push 5).2) 5).2.2.2.1 rfl

/-- C10: a buffer created with `new 0` (internal capacity 2) rejects every
operation in every sequential execution — each push returns `Full`, each
pull returns `Empty` — and its state never changes, so it can never hold
an element. -/
theorem anellus_C10 {T : Type} [Inhabited T] (init : Nat → T) (ops : List (Op T)) :
    ((Anellus.new 0 init).run ops).2 =
      ops.map (fun op => match op with
        | Op.push _ => Out.pushFull
        | Op.pull => Out.pullEmpty) ∧
    ((Anellus.new 0 init).run ops).1 = Anellus.new 0 init := by
  induction ops with
  | nil => exact ⟨rfl, rfl⟩
  | cons op ops ih =>
    simp only [Anellus.run, step_cap0, List.map_cons]
    exact ⟨by rw [ih.1], ih.2⟩

/-- C6: a failing execution of the concurrent algorithm, at the atomic-step
granularity of `src/lib.rs`, with n = 1 producer successfully enqueueing
k = 1 value (7) and m = 1 consumer draining through a cloned handle, on
`new 1` whose uninitialised storage holds junk 0.  Schedule: the producer
runs up to and including its successful CAS of `w` (4 steps of thread 0)
but is preempted *before* writing the slot; the consumer then completes a
whole pull (5 steps of thread 1) — it sees `w` already advanced, reads the
not-yet-written slot 1, and its CAS of `r` succeeds, so it returns the
junk value 0; the producer then writes 7 into the already-consumed slot 1
and reports success; the consumer's next pull finds the buffer empty and
stops draining.  Outcome: the producer's log shows one successful push of
7, yet the values received across all consumers are `[0]` — the enqueued
value 7 is never delivered (it is lost in a slot the cursors have already
passed), and a value nobody enqueued was delivered instead, refuting
"no value lost". -/
theorem anellus_C6_race :
    (execSched
        { g := Anellus.new 1 (fun _ => 0)
          threads := [⟨PC.idle, [Op.push 7], []⟩,
                      ⟨PC.idle, [Op.pull, Op.pull], []⟩] }
        [0, 0, 0, 0, 1, 1, 1, 1, 1, 0, 1, 1, 1, 1]).threads.map Thread.log =
      [[Out.pushOk 7], [Out.pullOk 0, Out.pullEmpty]] ∧
    accepted [Out.pushOk (7 : Nat)] = [7] ∧
    returned [Out.pullOk (0 : Nat), Out.pullEmpty] = [0] ∧
    (7 : Nat) ∉ returned [Out.pullOk (0 : Nat), Out.pullEmpty] ∧
    (execSched
        { g := Anellus.new 1 (fun _ => 0)
          threads := [⟨PC.idle, [Op.push 7], []⟩,
                      ⟨PC.idle, [Op.pull, Op.pull], []⟩] }
        [0, 0, 0, 0, 1, 1, 1, 1, 1, 0, 1, 1, 1, 1]).g =
      { r := 1, w := 2, capacity := 3, ring := [0, 7, 0] } := by
  decide
